import Mathlib

/-!
Verification of the import-resolution pipeline of `protobuf-codegen-pure`
(`src/protobuf-codegen-pure/src/lib.rs`).

The development shallowly embeds the resolver (`Run`) and its operations
(`add_file`, `add_file_content`, `add_imported_file`, `add_fs_file`,
`get_file_and_all_deps_already_parsed`, `get_all_deps_already_parsed`,
`parse_and_typecheck`).  External collaborators that are not part of the
source file (the grammar parser, the AST-to-descriptor converter, the
filesystem) are modelled as an explicit environment of pure functions, so
every theorem quantifies over all of their behaviours.  The recursion of the
source has no termination guarantee on cyclic import graphs, so the embedding
is fuel-indexed: running out of fuel is a distinct `diverge` outcome that
models non-termination of the Rust code.  The state carries an event trace
recording every filesystem read, parser invocation and converter invocation,
so that claims of the form "the parser is not re-invoked" are expressible as
trace equalities.
-/

/-- A host filesystem path (`std::path::Path`), kept as a flag for
absoluteness plus its list of components, assumed component-normalized the
way `Path::components` yields them (interior `.` segments elided). -/
structure FsPath where
  isAbs : Bool
  comps : List String
deriving DecidableEq, Repr

/-- Separator used when rendering paths. -/
def slashStr : String := "/"

/-- Rendering used by `fs_path.display()` in error messages. -/
def FsPath.display (p : FsPath) : String :=
  (if p.isAbs then slashStr else String.intercalate slashStr []) ++
    String.intercalate slashStr p.comps

/-- Path join (`include_dir.join(...)`): joining an absolute right side
replaces the left side, otherwise components are appended. -/
def FsPath.join (d : FsPath) (r : FsPath) : FsPath :=
  if r.isAbs then r else ⟨d.isAbs, d.comps ++ r.comps⟩

/-- A canonical (slash-separated, relative, normalized) protobuf path
(`ProtoPathBuf`). -/
structure ProtoPathBuf where
  comps : List String
deriving DecidableEq, Repr

/-- String form of a canonical path (`ProtoPath::to_str`). -/
def ProtoPathBuf.toStr (p : ProtoPathBuf) : String :=
  String.intercalate slashStr p.comps

/-- Filesystem form of a canonical path (`ProtoPath::to_path`): always a
relative path with the same components. -/
def ProtoPathBuf.toPath (p : ProtoPathBuf) : FsPath :=
  ⟨false, p.comps⟩

/-- A path component that is a normal name: nonempty and neither the current
nor the parent directory. -/
def validComponent (s : String) : Bool :=
  s ≠ "" && s ≠ "." && s ≠ ".."

/-- Modelled from the spec: `ProtoPathBuf::from_path` ("fails if the path is
not representable, e.g. contains non-normalizable segments"); the function
itself is not under `src/`.  A filesystem path converts to a canonical path
exactly when it is relative, nonempty, and all of its components are normal
names. -/
def ProtoPathBuf.from_path (p : FsPath) : Option ProtoPathBuf :=
  if !p.isAbs && !p.comps.isEmpty && p.comps.all validComponent then
    some ⟨p.comps⟩
  else
    none

/-- The current-directory path `Path::new(".")`. -/
def dotPath : FsPath := ⟨false, ["."]⟩

/-- One import declaration of a parsed file (`model::Import`); only the
imported canonical path matters to the resolver. -/
structure Import where
  path : ProtoPathBuf
deriving DecidableEq, Repr

/-- The parsed file model (`model::FileDescriptor`), an external
collaborator: its declared imports plus an opaque remainder standing for the
package and type declarations the resolver never inspects. -/
structure FileDescriptor where
  imports : List Import
  rest : String
deriving DecidableEq, Repr

/-- The fully linked binary descriptor, opaque to the resolver; it is
produced by the external converter. -/
abbrev Descriptor := String

/-- A cache entry (`FileDescriptorPair`). -/
structure FileDescriptorPair where
  parsed : FileDescriptor
  descriptor : Descriptor
deriving DecidableEq, Repr

/-- Modelled from the spec: the insertion-ordered associative cache
(`linked_hash_map::LinkedHashMap`, not under `src/`), embedded as the list of
its key-value entries in insertion order. -/
abbrev LHM := List (ProtoPathBuf × FileDescriptorPair)

/-- Lookup in an insertion-ordered map. -/
def lhmGet (m : LHM) (k : ProtoPathBuf) : Option FileDescriptorPair :=
  (m.find? (fun e => decide (e.1 = k))).map (fun e => e.2)

/-- Insertion into an insertion-ordered map: an existing key keeps its
position and has its value replaced, a new key is appended at the end. -/
def lhmInsert (m : LHM) (k : ProtoPathBuf) (v : FileDescriptorPair) : LHM :=
  if (lhmGet m k).isSome then
    m.map (fun e => if e.1 = k then (k, v) else e)
  else
    m ++ [(k, v)]

/-- Keys of the map in insertion order. -/
def lhmKeys (m : LHM) : List ProtoPathBuf := m.map (fun e => e.1)

/-- Effects performed during a resolver session, in order: filesystem reads
(`fs::read_to_string`), parser invocations (`FileDescriptor::parse`) and
converter invocations (`convert::file_descriptor`, with the ordered
dependency list it receives). -/
inductive Event where
  | fsReadEv (p : FsPath)
  | parseEv (content : String)
  | convertEv (p : ProtoPathBuf) (deps : List FileDescriptorPair)
deriving DecidableEq, Repr

/-- The error taxonomy of the source file.  `withFile` is `WithFileError`
(an error wrapped with the display path of the file being processed);
`panicMustBeParsed` models the Rust panic of
`.expect("must be already parsed")`.  Formatted include-directory
descriptions are abstracted by the directory list itself, and the payloads
of parser and converter errors are opaque strings. -/
inductive PError where
  | fileNotFoundInImportPath (path : String) (includes : List FsPath)
  | fileMustResideInImportPath (fs_path : FsPath) (includes : List FsPath)
  | couldNotReadFile (fs_path : FsPath)
  | parseError (e : String)
  | convertError (e : String)
  | withFile (file : String) (error : PError)
  | panicMustBeParsed
deriving DecidableEq, Repr

/-- Whether an error is a `WithFileError` wrapper. -/
def PError.isWithFile : PError → Bool
  | .withFile _ _ => true
  | _ => false

/-- The resolver state (`struct Run`): the insertion-ordered cache of parsed
files, the configured include directories (read-only for the session), and
the trace of effects performed so far. -/
structure Run where
  parsed_files : LHM
  includes : List FsPath
  events : List Event
deriving DecidableEq, Repr

/-- Outcome of a resolver operation: success or error together with the
state after the operation (Rust mutates `&mut self`, so mutations persist
into the error case), or divergence (the fuel of the embedding ran out,
modelling non-termination of the unguarded recursion on cyclic imports). -/
inductive RunResult (α : Type) where
  | ok : α → Run → RunResult α
  | err : PError → Run → RunResult α
  | diverge : RunResult α
deriving DecidableEq, Repr

/-- Final state of a resolver operation, when it terminated. -/
def RunResult.finalRun {α : Type} : RunResult α → Option Run
  | .ok _ r => some r
  | .err _ r => some r
  | .diverge => none

/-- The external environment: filesystem existence checks and reads
(`Path::exists`, `fs::read_to_string`; a `none` read models an I/O error),
the grammar parser (`model::FileDescriptor::parse`) and the semantic
converter (`convert::file_descriptor`).  All are arbitrary pure functions,
so the theorems below hold for every behaviour of these collaborators. -/
structure Env where
  fsExists : FsPath → Bool
  fsRead : FsPath → Option String
  parse : String → Except String FileDescriptor
  convert : ProtoPathBuf → FileDescriptor → List FileDescriptorPair →
      Except String Descriptor

/-- Modelled from the spec: the literal text of the embedded well-known
schemas (the `include_str!` contents are not under `src/`); each constant is
an opaque placeholder distinct from the others. -/
def RUSTPROTO_PROTO : String := "embedded:rustproto"

/-- Embedded text of `google/protobuf/any.proto`. -/
def ANY_PROTO : String := "embedded:any"

/-- Embedded text of `google/protobuf/api.proto`. -/
def API_PROTO : String := "embedded:api"

/-- Embedded text of `google/protobuf/descriptor.proto`. -/
def DESCRIPTOR_PROTO : String := "embedded:descriptor"

/-- Embedded text of `google/protobuf/duration.proto`. -/
def DURATION_PROTO : String := "embedded:duration"

/-- Embedded text of `google/protobuf/empty.proto`. -/
def EMPTY_PROTO : String := "embedded:empty"

/-- Embedded text of `google/protobuf/field_mask.proto`. -/
def FIELD_MASK_PROTO : String := "embedded:field_mask"

/-- Embedded text of `google/protobuf/source_context.proto`. -/
def SOURCE_CONTEXT_PROTO : String := "embedded:source_context"

/-- Embedded text of `google/protobuf/struct.proto`. -/
def STRUCT_PROTO : String := "embedded:struct"

/-- Embedded text of `google/protobuf/timestamp.proto`. -/
def TIMESTAMP_PROTO : String := "embedded:timestamp"

/-- Embedded text of `google/protobuf/type.proto`. -/
def TYPE_PROTO : String := "embedded:type"

/-- Embedded text of `google/protobuf/wrappers.proto`. -/
def WRAPPERS_PROTO : String := "embedded:wrappers"

/-- The embedded schema table: the `match protobuf_path.to_str()` of
`add_imported_file`, an exact string match with twelve fixed entries. -/
def embeddedContent (s : String) : Option String :=
  match s with
  | "rustproto.proto" => some RUSTPROTO_PROTO
  | "google/protobuf/any.proto" => some ANY_PROTO
  | "google/protobuf/api.proto" => some API_PROTO
  | "google/protobuf/descriptor.proto" => some DESCRIPTOR_PROTO
  | "google/protobuf/duration.proto" => some DURATION_PROTO
  | "google/protobuf/empty.proto" => some EMPTY_PROTO
  | "google/protobuf/field_mask.proto" => some FIELD_MASK_PROTO
  | "google/protobuf/source_context.proto" => some SOURCE_CONTEXT_PROTO
  | "google/protobuf/struct.proto" => some STRUCT_PROTO
  | "google/protobuf/timestamp.proto" => some TIMESTAMP_PROTO
  | "google/protobuf/type.proto" => some TYPE_PROTO
  | "google/protobuf/wrappers.proto" => some WRAPPERS_PROTO
  | _ => none

/-- The twelve canonical paths present in the embedded schema table. -/
def embeddedPaths : List String :=
  ["rustproto.proto", "google/protobuf/any.proto", "google/protobuf/api.proto",
   "google/protobuf/descriptor.proto", "google/protobuf/duration.proto",
   "google/protobuf/empty.proto", "google/protobuf/field_mask.proto",
   "google/protobuf/source_context.proto", "google/protobuf/struct.proto",
   "google/protobuf/timestamp.proto", "google/protobuf/type.proto",
   "google/protobuf/wrappers.proto"]

/-- Call shapes of the dependency-closure computation
(`get_file_and_all_deps_already_parsed` and the loop body of
`get_all_deps_already_parsed`), so the two mutually recursive functions can
be embedded as one function structurally recursive on fuel. -/
inductive DepsCall where
  | one (p : ProtoPathBuf) (result : LHM)
  | many (imps : List Import) (result : LHM)
deriving DecidableEq, Repr

/-- Result of the dependency-closure computation: the accumulated ordered
closure, the panic of `.expect("must be already parsed")`, or fuel
exhaustion (an artifact of the embedding; the source recursion always
terminates on caches produced by a resolver session). -/
inductive DepsResult where
  | ok (result : LHM)
  | panic
  | outOfFuel
deriving DecidableEq, Repr

/-- The dependency-closure DFS over the cache (`&self.parsed_files`).
`DepsCall.one p result` is `get_file_and_all_deps_already_parsed(p, result)`:
return if `p` is already in the accumulator, panic if `p` is not cached, else
append the cache entry of `p` to the accumulator and recurse into the
declared imports of `p`.  `DepsCall.many imps result` is the loop of
`get_all_deps_already_parsed` over `imps` threading the accumulator. -/
def depsStep (cache : LHM) : Nat → DepsCall → DepsResult
  | 0, _ => .outOfFuel
  | fuel + 1, .one protobuf_path result =>
    if (lhmGet result protobuf_path).isSome then
      .ok result
    else
      match lhmGet cache protobuf_path with
      | none => .panic
      | some pair =>
        depsStep cache fuel
          (.many pair.parsed.imports (lhmInsert result protobuf_path pair))
  | _ + 1, .many [] result => .ok result
  | fuel + 1, .many (imp :: rest) result =>
    match depsStep cache fuel (.one imp.path result) with
    | .ok r => depsStep cache fuel (.many rest r)
    | e => e

/-- `Run::get_file_and_all_deps_already_parsed`. -/
def get_file_and_all_deps_already_parsed (cache : LHM) (fuel : Nat)
    (protobuf_path : ProtoPathBuf) (result : LHM) : DepsResult :=
  depsStep cache fuel (.one protobuf_path result)

/-- `Run::get_all_deps_already_parsed`: iterate
`get_file_and_all_deps_already_parsed` over the declared imports of a parsed
file. -/
def get_all_deps_already_parsed (cache : LHM) (fuel : Nat)
    (parsed : FileDescriptor) (result : LHM) : DepsResult :=
  depsStep cache fuel (.many parsed.imports result)

/-- Generous fuel bound used where `add_file_content` invokes the closure
computation: at most one insertion per cache entry can happen, and each loop
step consumes one unit, so total call depth is bounded by the total size of
the cache plus its import lists. -/
def depsFuel (cache : LHM) (imps : List Import) : Nat :=
  cache.foldl (fun a e => a + e.2.parsed.imports.length + 2)
    (imps.length + 2)

/-- Call shapes of the resolver operations, so the four mutually recursive
bodies (`add_imported_file`, `add_file`, `add_file_content` and the
loop resolving imports inside `add_file_content`) can be embedded as one
function structurally recursive on fuel. -/
inductive Call where
  | aif (r : Run) (protobuf_path : ProtoPathBuf)
  | af (r : Run) (protobuf_path : ProtoPathBuf) (fs_path : FsPath)
  | afc (r : Run) (protobuf_path : ProtoPathBuf) (fs_path : FsPath)
      (content : String)
  | loop (r : Run) (imps : List Import)

/-- The `Run` state a call starts from. -/
def Call.runOf : Call → Run
  | .aif r _ => r
  | .af r _ _ => r
  | .afc r _ _ _ => r
  | .loop r _ => r

/-- The resolver interpreter.  Each `Call` shape is the body of the
corresponding source method, translated clause by clause:

* `Call.aif r p` is `Run::add_imported_file(p)`: no-op if `p` is cached;
  else the first include directory whose joined path exists on disk wins and
  delegates to `add_file`; else the embedded schema table is consulted by
  exact string match, delegating to `add_file_content` with the canonical
  path doubling as pseudo filesystem path; else
  `Error::FileNotFoundInImportPath`.
* `Call.af r p fs` is `Run::add_file(p, fs)`: no-op if `p` is cached; else
  read the file (recording the read in the trace), failing with
  `Error::CouldNotReadFile`, and delegate to `add_file_content`.
* `Call.afc r p fs content` is `Run::add_file_content(p, fs, content)`:
  parse (recording the parser invocation), wrapping a parse error in
  `WithFileError` with the display of `fs`; resolve every declared import
  via `add_imported_file`, propagating its error unchanged; compute the
  ordered dependency closure of this file; convert (recording the converter
  invocation and the dependency list it receives), wrapping a conversion
  error in `WithFileError`; insert the `{parsed, descriptor}` pair under
  `p`.
* `Call.loop r imps` is the `for import in &parsed.imports` loop of
  `add_file_content`. -/
def step (env : Env) : Nat → Call → RunResult Unit
  | 0, _ => .diverge
  | fuel + 1, .aif r protobuf_path =>
    if (lhmGet r.parsed_files protobuf_path).isSome then
      .ok () r
    else
      match r.includes.find?
          (fun include_dir => env.fsExists (include_dir.join protobuf_path.toPath)) with
      | some include_dir =>
        step env fuel (.af r protobuf_path (include_dir.join protobuf_path.toPath))
      | none =>
        match embeddedContent protobuf_path.toStr with
        | some content =>
          step env fuel (.afc r protobuf_path protobuf_path.toPath content)
        | none =>
          .err (.fileNotFoundInImportPath protobuf_path.toStr r.includes) r
  | fuel + 1, .af r protobuf_path fs_path =>
    if (lhmGet r.parsed_files protobuf_path).isSome then
      .ok () r
    else
      match env.fsRead fs_path with
      | none =>
        .err (.couldNotReadFile fs_path)
          { r with events := r.events ++ [.fsReadEv fs_path] }
      | some content =>
        step env fuel
          (.afc { r with events := r.events ++ [.fsReadEv fs_path] }
            protobuf_path fs_path content)
  | fuel + 1, .afc r protobuf_path fs_path content =>
    match env.parse content with
    | .error e =>
      .err (.withFile fs_path.display (.parseError e))
        { r with events := r.events ++ [.parseEv content] }
    | .ok parsed =>
      match step env fuel
          (.loop { r with events := r.events ++ [.parseEv content] }
            parsed.imports) with
      | .ok () r2 =>
        match depsStep r2.parsed_files (depsFuel r2.parsed_files parsed.imports)
            (.many parsed.imports []) with
        | .outOfFuel => .diverge
        | .panic => .err .panicMustBeParsed r2
        | .ok this_file_deps =>
          match env.convert protobuf_path parsed
              (this_file_deps.map (fun e => e.2)) with
          | .error e =>
            .err (.withFile fs_path.display (.convertError e))
              { r2 with
                events := r2.events ++
                  [.convertEv protobuf_path (this_file_deps.map (fun e => e.2))] }
          | .ok descriptor =>
            .ok ()
              { parsed_files := lhmInsert r2.parsed_files protobuf_path
                  ⟨parsed, descriptor⟩,
                includes := r2.includes,
                events := r2.events ++
                  [.convertEv protobuf_path (this_file_deps.map (fun e => e.2))] }
      | .err e r2 => .err e r2
      | .diverge => .diverge
  | _ + 1, .loop r [] => .ok () r
  | fuel + 1, .loop r (imp :: rest) =>
    match step env fuel (.aif r imp.path) with
    | .ok () r2 => step env fuel (.loop r2 rest)
    | e => e

/-- `Run::add_imported_file`. -/
def add_imported_file (env : Env) (fuel : Nat) (r : Run)
    (protobuf_path : ProtoPathBuf) : RunResult Unit :=
  step env fuel (.aif r protobuf_path)

/-- `Run::add_file`. -/
def add_file (env : Env) (fuel : Nat) (r : Run) (protobuf_path : ProtoPathBuf)
    (fs_path : FsPath) : RunResult Unit :=
  step env fuel (.af r protobuf_path fs_path)

/-- `Run::add_file_content`. -/
def add_file_content (env : Env) (fuel : Nat) (r : Run)
    (protobuf_path : ProtoPathBuf) (fs_path : FsPath) (content : String) :
    RunResult Unit :=
  step env fuel (.afc r protobuf_path fs_path content)

/-- `Run::strip_prefix` applied to `std::path::Path::strip_prefix`;
modelled from the spec: "ordinary prefix stripping, fails if the path does
not start with `base`" (component-wise, with matching absoluteness; the
stripped remainder is relative). -/
def fsStripPfx (path pfx : FsPath) : Option FsPath :=
  if pfx.isAbs = path.isAbs && pfx.comps.isPrefixOf path.comps then
    some ⟨false, path.comps.drop pfx.comps.length⟩
  else
    none

/-- `Run::strip_prefix`: special handling of the include directory `.` (a
relative path is converted whole), otherwise ordinary prefix stripping
followed by canonical-path conversion.  Only success or failure of the
`anyhow::Result` is observed by the caller, so the result is an `Option`. -/
def strip_pfx (path pfx : FsPath) : Option ProtoPathBuf :=
  if pfx = dotPath && !path.isAbs then
    ProtoPathBuf.from_path path
  else
    (fsStripPfx path pfx).bind ProtoPathBuf.from_path

/-- `Run::add_fs_file`: the first include directory under which the input
filesystem path can be expressed as a relative canonical path wins;
delegates to `add_file` and returns the derived canonical path, or fails
with `Error::FileMustResideInImportPath` when no include directory
matches. -/
def add_fs_file (env : Env) (fuel : Nat) (r : Run) (fs_path : FsPath) :
    RunResult ProtoPathBuf :=
  match r.includes.findSome? (fun include_dir => strip_pfx fs_path include_dir) with
  | some relative_path =>
    match add_file env fuel r relative_path fs_path with
    | .ok () r2 => .ok relative_path r2
    | .err e r2 => .err e r2
    | .diverge => .diverge
  | none => .err (.fileMustResideInImportPath fs_path r.includes) r

/-- Result of `parse_and_typecheck` (`ParsedAndTypechecked`). -/
structure ParsedAndTypechecked where
  relative_paths : List ProtoPathBuf
  file_descriptors : List Descriptor
deriving DecidableEq, Repr

/-- Outcome of a whole session: the final result or the first error
(the session state is discarded either way), or divergence. -/
inductive PTResult where
  | ok (p : ParsedAndTypechecked)
  | err (e : PError)
  | diverge
deriving DecidableEq, Repr

/-- The `for input in input` loop of `parse_and_typecheck`, accumulating the
canonical path of each input in input order. -/
def pt_loop (env : Env) (fuel : Nat) : Run → List FsPath →
    RunResult (List ProtoPathBuf)
  | r, [] => .ok [] r
  | r, input :: rest =>
    match add_fs_file env fuel r input with
    | .ok relative_path r2 =>
      match pt_loop env fuel r2 rest with
      | .ok relative_paths r3 => .ok (relative_path :: relative_paths) r3
      | .err e r3 => .err e r3
      | .diverge => .diverge
    | .err e r2 => .err e r2
    | .diverge => .diverge

/-- `parse_and_typecheck`: a fresh resolver per session, one `add_fs_file`
per input in order, then the cache is drained in insertion order into the
final descriptor list. -/
def parse_and_typecheck (env : Env) (fuel : Nat) (includes : List FsPath)
    (input : List FsPath) : PTResult :=
  match pt_loop env fuel ⟨[], includes, []⟩ input with
  | .ok relative_paths rF =>
    .ok ⟨relative_paths, rF.parsed_files.map (fun e => e.2.descriptor)⟩
  | .err e _ => .err e
  | .diverge => .diverge

/-! ### Lemmas about the insertion-ordered cache -/

theorem lhmGet_nil (k : ProtoPathBuf) : lhmGet [] k = none := rfl

theorem lhmGet_cons (e : ProtoPathBuf × FileDescriptorPair) (m : LHM)
    (k : ProtoPathBuf) :
    lhmGet (e :: m) k = if e.1 = k then some e.2 else lhmGet m k := by
  by_cases h : e.1 = k <;> simp [lhmGet, List.find?_cons, h]

theorem lhmGet_append (m1 m2 : LHM) (k : ProtoPathBuf) :
    lhmGet (m1 ++ m2) k =
      ((lhmGet m1 k).rec (lhmGet m2 k) (fun v => some v) : Option _) := by
  induction m1 with
  | nil => simp [lhmGet_nil]
  | cons e m ih =>
    by_cases h : e.1 = k <;> simp [lhmGet_cons, h, ih]

theorem lhmGet_map_replace (m : LHM) (k : ProtoPathBuf) (v : FileDescriptorPair)
    (k' : ProtoPathBuf) :
    lhmGet (m.map (fun e => if e.1 = k then (k, v) else e)) k' =
      if k' = k then (lhmGet m k).map (fun _ => v) else lhmGet m k' := by
  induction m with
  | nil => by_cases h : k' = k <;> simp [lhmGet_nil, h]
  | cons e m ih =>
    by_cases he : e.1 = k
    · by_cases h : k' = k
      · subst h; simp [he, lhmGet_cons, ih]
      · have : ¬(k = k') := fun hh => h hh.symm
        simp [he, lhmGet_cons, ih, h, this]
    · by_cases h : k' = k
      · subst h; simp [he, lhmGet_cons, ih]
      · by_cases he' : e.1 = k' <;> simp [he, he', lhmGet_cons, ih, h]

theorem lhmGet_insert (m : LHM) (k : ProtoPathBuf) (v : FileDescriptorPair)
    (k' : ProtoPathBuf) :
    lhmGet (lhmInsert m k v) k' = if k' = k then some v else lhmGet m k' := by
  unfold lhmInsert
  by_cases hp : (lhmGet m k).isSome
  · obtain ⟨w, hw⟩ := Option.isSome_iff_exists.mp hp
    simp [hp, lhmGet_map_replace, hw]
  · rw [if_neg hp, lhmGet_append]
    by_cases h : k' = k
    · subst h
      have : lhmGet m k' = none := Option.not_isSome_iff_eq_none.mp hp
      simp [this, lhmGet_cons]
    · cases hm : lhmGet m k' with
      | none =>
        have : ¬(k = k') := fun hh => h hh.symm
        simp [hm, lhmGet_cons, lhmGet_nil, this, h]
      | some w => simp [hm, h]

theorem lhmGet_insert_isSome (m : LHM) (k : ProtoPathBuf)
    (v : FileDescriptorPair) (k' : ProtoPathBuf)
    (h : (lhmGet m k').isSome) : (lhmGet (lhmInsert m k v) k').isSome := by
  rw [lhmGet_insert]
  by_cases hk : k' = k <;> simp [hk, h]

theorem mem_lhmKeys_iff (m : LHM) (k : ProtoPathBuf) :
    k ∈ lhmKeys m ↔ (lhmGet m k).isSome := by
  induction m with
  | nil => simp [lhmKeys, lhmGet_nil]
  | cons e m ih =>
    by_cases h : e.1 = k
    · simp [lhmKeys, lhmGet_cons, h]
    · have : ¬(k = e.1) := fun hh => h hh.symm
      simp [lhmKeys, lhmGet_cons, h, this] at ih ⊢
      exact ih

theorem lhmKeys_insert_present (m : LHM) (k : ProtoPathBuf)
    (v : FileDescriptorPair) (h : (lhmGet m k).isSome) :
    lhmKeys (lhmInsert m k v) = lhmKeys m := by
  unfold lhmInsert lhmKeys
  simp only [h, if_true, List.map_map]
  apply List.map_congr_left
  intro e _
  by_cases he : e.1 = k <;> simp [he]

theorem lhmKeys_insert_absent (m : LHM) (k : ProtoPathBuf)
    (v : FileDescriptorPair) (h : ¬(lhmGet m k).isSome) :
    lhmKeys (lhmInsert m k v) = lhmKeys m ++ [k] := by
  unfold lhmInsert lhmKeys
  simp [h]

theorem lhmNodup_insert (m : LHM) (k : ProtoPathBuf) (v : FileDescriptorPair)
    (h : (lhmKeys m).Nodup) : (lhmKeys (lhmInsert m k v)).Nodup := by
  by_cases hp : (lhmGet m k).isSome
  · rw [lhmKeys_insert_present m k v hp]; exact h
  · rw [lhmKeys_insert_absent m k v hp]
    have hk : k ∉ lhmKeys m := fun hm => hp ((mem_lhmKeys_iff m k).mp hm)
    simp [List.nodup_append, h, hk]

/-! ### The dependency closure: reachability, exactness, order, no panic -/

/-- A cache is import-closed when every import declared by a cached file is
itself cached.  This is the invariant the resolver maintains: a file is
inserted only after all of its imports have been resolved. -/
def importClosed (cache : LHM) : Prop :=
  ∀ k pair, lhmGet cache k = some pair →
    ∀ imp ∈ pair.parsed.imports, (lhmGet cache imp.path).isSome

/-- Transitive-import reachability over a cache: the paths a file with
declared imports `roots` transitively imports (the roots themselves
included), following the declared imports of cached files. -/
inductive Reach (cache : LHM) (roots : List Import) : ProtoPathBuf → Prop where
  | root {p : ProtoPathBuf} (h : Import.mk p ∈ roots) : Reach cache roots p
  | step {q p : ProtoPathBuf} {pair : FileDescriptorPair}
      (hq : Reach cache roots q) (hc : lhmGet cache q = some pair)
      (hi : Import.mk p ∈ pair.parsed.imports) : Reach cache roots p

theorem Reach.mono {cache : LHM} {roots roots' : List Import}
    (h : ∀ imp ∈ roots, Reach cache roots' imp.path) {k : ProtoPathBuf} :
    Reach cache roots k → Reach cache roots' k := by
  intro hk
  induction hk with
  | root hp => exact h _ hp
  | step hq hc hi ih => exact .step ih hc hi

theorem Reach.mono_sub {cache : LHM} {roots roots' : List Import}
    (hsub : ∀ imp ∈ roots, imp ∈ roots') {k : ProtoPathBuf} :
    Reach cache roots k → Reach cache roots' k :=
  Reach.mono (fun imp hi => .root (by simpa using hsub imp hi))

/-- Accumulator of a closure-computation call. -/
def DepsCall.acc : DepsCall → LHM
  | .one _ result => result
  | .many _ result => result

/-- Paths a closure-computation call is required to place in its result:
the single path of `get_file_and_all_deps_already_parsed`, or every
declared import for the loop of `get_all_deps_already_parsed`. -/
def depsTargets : DepsCall → LHM → Prop
  | .one p _, res => (lhmGet res p).isSome
  | .many imps _, res => ∀ imp ∈ imps, (lhmGet res imp.path).isSome

/-- Paths reachable from the roots of a closure-computation call. -/
def depsReachOf (cache : LHM) : DepsCall → ProtoPathBuf → Prop
  | .one p _ => Reach cache [⟨p⟩]
  | .many imps _ => Reach cache imps

/-- Master invariant of the dependency-closure DFS, on success: (1) the
accumulator entries are preserved value-for-value; (2) the requested paths
are present; (3) every non-accumulator entry of the result is the cache
entry for its key and has all of its declared imports present in the result;
(4) every non-accumulator entry of the result is reachable from the call's
roots. -/
theorem depsStep_ok_props (cache : LHM) :
    ∀ fuel c res, depsStep cache fuel c = .ok res →
      (∀ k v, lhmGet c.acc k = some v → lhmGet res k = some v) ∧
      depsTargets c res ∧
      (∀ k, (lhmGet res k).isSome → (lhmGet c.acc k).isSome ∨
        (lhmGet res k = lhmGet cache k ∧
          ∀ pair, lhmGet cache k = some pair →
            ∀ imp ∈ pair.parsed.imports, (lhmGet res imp.path).isSome)) ∧
      (∀ k, (lhmGet res k).isSome → (lhmGet c.acc k).isSome ∨
        depsReachOf cache c k) := by
  intro fuel
  induction fuel with
  | zero => intro c res h; simp [depsStep] at h
  | succ fuel ih =>
    intro c res h
    cases c with
    | one p acc =>
      cases hp : (lhmGet acc p).isSome with
      | true =>
        simp only [depsStep, hp, if_true] at h
        obtain rfl : acc = res := by cases h; rfl
        refine ⟨fun k v hk => hk, ?_, fun k hk => .inl hk, fun k hk => .inl hk⟩
        simpa [depsTargets] using hp
      | false =>
        rw [depsStep] at h
        rw [hp] at h
        simp only [Bool.false_eq_true, if_false] at h
        cases hc : lhmGet cache p with
        | none => rw [hc] at h; cases h
        | some pair =>
          rw [hc] at h
          obtain ⟨Q1, Q2, Q3, Q4⟩ := ih _ _ h
          simp only [DepsCall.acc, depsTargets, depsReachOf] at Q1 Q2 Q3 Q4
          simp only [DepsCall.acc, depsTargets, depsReachOf]
          have hpfalse : ¬((lhmGet acc p).isSome = true) := by simp [hp]
          have hacc' : ∀ k v, lhmGet acc k = some v →
              lhmGet (lhmInsert acc p pair) k = some v := by
            intro k v hk
            rw [lhmGet_insert]
            by_cases hkp : k = p
            · subst hkp; exact absurd (by simp [hk]) hpfalse
            · simp [hkp, hk]
          have hself : lhmGet (lhmInsert acc p pair) p = some pair := by
            rw [lhmGet_insert]; simp
          have hres_p : lhmGet res p = some pair := Q1 p pair hself
          refine ⟨fun k v hk => Q1 k v (hacc' k v hk), ?_, ?_, ?_⟩
          · simp [hres_p]
          · intro k hk
            rcases Q3 k hk with hins | hcl
            · rw [lhmGet_insert] at hins
              by_cases hkp : k = p
              · subst hkp
                refine .inr ⟨by rw [hres_p, hc], ?_⟩
                intro pair' hpair' imp hi
                rw [hc] at hpair'
                cases hpair'
                exact Q2 imp hi
              · simp only [hkp, if_false] at hins
                exact .inl hins
            · exact .inr hcl
          · intro k hk
            rcases Q4 k hk with hins | hr
            · rw [lhmGet_insert] at hins
              by_cases hkp : k = p
              · subst hkp
                exact .inr (.root (by simp))
              · simp only [hkp, if_false] at hins
                exact .inl hins
            · refine .inr (Reach.mono ?_ hr)
              intro imp hi
              exact .step (.root (by simp)) hc (by simpa using hi)
    | many imps acc =>
      cases imps with
      | nil =>
        simp only [depsStep] at h
        obtain rfl : acc = res := by cases h; rfl
        exact ⟨fun k v hk => hk, by simp [depsTargets],
          fun k hk => .inl hk, fun k hk => .inl hk⟩
      | cons imp rest =>
        rw [depsStep] at h
        cases hm : depsStep cache fuel (.one imp.path acc) with
        | ok mid =>
          rw [hm] at h
          obtain ⟨A1, A2, A3, A4⟩ := ih _ _ hm
          obtain ⟨B1, B2, B3, B4⟩ := ih _ _ h
          simp only [DepsCall.acc, depsTargets, depsReachOf] at A1 A2 A3 A4 B1 B2 B3 B4
          simp only [DepsCall.acc, depsTargets, depsReachOf]
          have hmid_res : ∀ k, (lhmGet mid k).isSome → (lhmGet res k).isSome := by
            intro k hk
            obtain ⟨v, hv⟩ := Option.isSome_iff_exists.mp hk
            simp [B1 k v hv]
          refine ⟨fun k v hk => B1 k v (A1 k v hk), ?_, ?_, ?_⟩
          · intro imp' hi
            rcases List.mem_cons.mp hi with rfl | hi'
            · exact hmid_res _ A2
            · exact B2 imp' hi'
          · intro k hk
            rcases B3 k hk with hmid | hcl
            · rcases A3 k hmid with hacc | ⟨hval, hcl'⟩
              · exact .inl hacc
              · refine .inr ⟨?_, ?_⟩
                · obtain ⟨v, hv⟩ := Option.isSome_iff_exists.mp hmid
                  rw [B1 k v hv, ← hv, hval]
                · intro pair hpair imp' hi
                  exact hmid_res _ (hcl' pair hpair imp' hi)
            · exact .inr hcl
          · intro k hk
            rcases B4 k hk with hmid | hr
            · rcases A4 k hmid with hacc | hr1
              · exact .inl hacc
              · refine .inr (Reach.mono_sub ?_ hr1)
                intro i hi
                simp only [List.mem_singleton] at hi
                subst hi
                simp
            · exact .inr (Reach.mono_sub (fun i hi => List.mem_cons_of_mem _ hi) hr)
        | panic => rw [hm] at h; cases h
        | outOfFuel => rw [hm] at h; cases h

/-- Completeness of the closure computation: starting from an empty
accumulator, every path transitively imported from the roots ends up in the
computed closure. -/
theorem depsStep_complete (cache : LHM) (fuel : Nat) (roots : List Import)
    (res : LHM) (h : depsStep cache fuel (.many roots []) = .ok res) :
    ∀ k, Reach cache roots k → (lhmGet res k).isSome := by
  obtain ⟨_, P2, P3, _⟩ := depsStep_ok_props cache fuel _ res h
  simp only [DepsCall.acc, depsTargets] at P2 P3
  intro k hk
  induction hk with
  | root hp => exact P2 _ hp
  | step hq hc hi ihq =>
    rcases P3 _ ihq with habs | ⟨_, hcl⟩
    · simp [lhmGet_nil] at habs
    · exact hcl _ hc _ hi

/-- Soundness of the closure computation: starting from an empty
accumulator, only paths transitively imported from the roots appear. -/
theorem depsStep_sound (cache : LHM) (fuel : Nat) (roots : List Import)
    (res : LHM) (h : depsStep cache fuel (.many roots []) = .ok res) :
    ∀ k, (lhmGet res k).isSome → Reach cache roots k := by
  obtain ⟨_, _, _, P4⟩ := depsStep_ok_props cache fuel _ res h
  simp only [DepsCall.acc, depsReachOf] at P4
  intro k hk
  rcases P4 k hk with habs | hr
  · simp [lhmGet_nil] at habs
  · exact hr

/-- Values of the computed closure come from the cache, entry for entry. -/
theorem depsStep_values (cache : LHM) (fuel : Nat) (roots : List Import)
    (res : LHM) (h : depsStep cache fuel (.many roots []) = .ok res) :
    ∀ k, (lhmGet res k).isSome → lhmGet res k = lhmGet cache k := by
  obtain ⟨_, _, P3, _⟩ := depsStep_ok_props cache fuel _ res h
  simp only [DepsCall.acc] at P3
  intro k hk
  rcases P3 k hk with habs | ⟨hv, _⟩
  · simp [lhmGet_nil] at habs
  · exact hv

/-- Presence condition under which a closure-computation call only looks up
cached paths. -/
def depsCallPres (cache : LHM) : DepsCall → Prop
  | .one p _ => (lhmGet cache p).isSome
  | .many imps _ => ∀ imp ∈ imps, (lhmGet cache imp.path).isSome

/-- On an import-closed cache, the closure computation never reaches the
`.expect("must be already parsed")` panic as long as the paths it is asked
for are cached. -/
theorem depsStep_no_panic (cache : LHM) (hcl : importClosed cache) :
    ∀ fuel c, depsCallPres cache c → depsStep cache fuel c ≠ .panic := by
  intro fuel
  induction fuel with
  | zero => intro c hpres h; simp [depsStep] at h
  | succ fuel ih =>
    intro c hpres h
    cases c with
    | one p acc =>
      simp only [depsCallPres] at hpres
      cases hp : (lhmGet acc p).isSome with
      | true => simp [depsStep, hp] at h
      | false =>
        obtain ⟨pair, hc⟩ := Option.isSome_iff_exists.mp hpres
        rw [depsStep, hp] at h
        simp only [Bool.false_eq_true, if_false, hc] at h
        exact ih (.many pair.parsed.imports (lhmInsert acc p pair))
          (fun imp hi => hcl p pair hc imp hi) h
    | many imps acc =>
      simp only [depsCallPres] at hpres
      cases imps with
      | nil => simp [depsStep] at h
      | cons imp rest =>
        rw [depsStep] at h
        cases hm : depsStep cache fuel (.one imp.path acc) with
        | ok mid =>
          rw [hm] at h
          exact ih (.many rest mid)
            (fun imp' hi => hpres imp' (List.mem_cons_of_mem _ hi)) h
        | panic =>
          exact ih (.one imp.path acc) (hpres imp (List.mem_cons_self _ _)) hm
        | outOfFuel => rw [hm] at h; cases h

/-- Call shapes of the specification-level first-discovery traversal. -/
inductive DfsCall where
  | one (p : ProtoPathBuf) (visited : List ProtoPathBuf)
  | many (ps : List ProtoPathBuf) (visited : List ProtoPathBuf)

/-- Modelled from the spec: "Ordering is first-discovery order (depth-first
over declared import order)".  A depth-first traversal over the import edges
of the cache that appends each file to the visit list the first time it is
discovered and then descends into its declared imports in order; the values
of the cache entries play no role.  `none` stands for fuel exhaustion or a
missing cache entry, mirroring the implementation's partiality. -/
def dfsSpec (cache : LHM) : Nat → DfsCall → Option (List ProtoPathBuf)
  | 0, _ => none
  | fuel + 1, .one p visited =>
    if p ∈ visited then some visited
    else
      match lhmGet cache p with
      | none => none
      | some pair =>
        dfsSpec cache fuel
          (.many (pair.parsed.imports.map Import.path) (visited ++ [p]))
  | _ + 1, .many [] visited => some visited
  | fuel + 1, .many (p :: rest) visited =>
    match dfsSpec cache fuel (.one p visited) with
    | some v => dfsSpec cache fuel (.many rest v)
    | none => none

/-- Projection of an implementation call to a specification call: keep only
the visit order (the keys of the accumulator). -/
def DepsCall.toDfs : DepsCall → DfsCall
  | .one p acc => .one p (lhmKeys acc)
  | .many imps acc => .many (imps.map Import.path) (lhmKeys acc)

/-- Order refinement: on success, the keys of the computed closure, in
insertion order, are exactly the visit list of the specification-level
first-discovery depth-first traversal. -/
theorem depsStep_keys_dfs (cache : LHM) :
    ∀ fuel c res, depsStep cache fuel c = .ok res →
      dfsSpec cache fuel c.toDfs = some (lhmKeys res) := by
  intro fuel
  induction fuel with
  | zero => intro c res h; simp [depsStep] at h
  | succ fuel ih =>
    intro c res h
    cases c with
    | one p acc =>
      simp only [DepsCall.toDfs]
      cases hp : (lhmGet acc p).isSome with
      | true =>
        simp only [depsStep, hp, if_true] at h
        obtain rfl : acc = res := by cases h; rfl
        have : p ∈ lhmKeys acc := (mem_lhmKeys_iff acc p).mpr (by simp [hp])
        simp [dfsSpec, this]
      | false =>
        rw [depsStep, hp] at h
        simp only [Bool.false_eq_true, if_false] at h
        cases hc : lhmGet cache p with
        | none => rw [hc] at h; cases h
        | some pair =>
          rw [hc] at h
          have hnotmem : p ∉ lhmKeys acc := by
            intro hmem
            rw [mem_lhmKeys_iff] at hmem
            simp [hp] at hmem
          have hkeys : lhmKeys (lhmInsert acc p pair) = lhmKeys acc ++ [p] :=
            lhmKeys_insert_absent acc p pair (by simp [hp])
          have := ih _ _ h
          simp only [DepsCall.toDfs, hkeys] at this
          simp [dfsSpec, hnotmem, hc, this]
    | many imps acc =>
      cases imps with
      | nil =>
        simp only [depsStep] at h
        obtain rfl : acc = res := by cases h; rfl
        simp [DepsCall.toDfs, dfsSpec]
      | cons imp rest =>
        rw [depsStep] at h
        cases hm : depsStep cache fuel (.one imp.path acc) with
        | ok mid =>
          rw [hm] at h
          have h1 := ih _ _ hm
          have h2 := ih _ _ h
          simp only [DepsCall.toDfs] at h1 h2
          simp [DepsCall.toDfs, dfsSpec, h1, h2]
        | panic => rw [hm] at h; cases h
        | outOfFuel => rw [hm] at h; cases h

/-! ### Invariants of the resolver operations -/

/-- Whether an error is the `FileMustResideInImportPath` variant. -/
def PError.isFMRIP : PError → Bool
  | .fileMustResideInImportPath _ _ => true
  | _ => false

/-- What a successful call guarantees about the final cache: the requested
path is cached (for the loop: every listed import is cached). -/
def cacheTargets : Call → Run → Prop
  | .aif _ p, r' => (lhmGet r'.parsed_files p).isSome
  | .af _ p _, r' => (lhmGet r'.parsed_files p).isSome
  | .afc _ p _ _, r' => (lhmGet r'.parsed_files p).isSome
  | .loop _ imps, r' => ∀ imp ∈ imps, (lhmGet r'.parsed_files imp.path).isSome

/-- State invariants every terminating resolver call preserves, relative to
the starting cache: no key is ever removed, keys stay duplicate-free, and
the import-closure invariant is maintained. -/
def statePost (cache : LHM) (r' : Run) : Prop :=
  (∀ k, (lhmGet cache k).isSome → (lhmGet r'.parsed_files k).isSome) ∧
  ((lhmKeys cache).Nodup → (lhmKeys r'.parsed_files).Nodup) ∧
  (importClosed cache → importClosed r'.parsed_files)

/-- Postcondition of a resolver call: on success the state invariants hold
and the targets are cached; on error the state invariants still hold (Rust
keeps the mutations made before the failure) and the error is never
`FileMustResideInImportPath` (only `add_fs_file` produces that variant);
divergence guarantees nothing. -/
def stepPostP (cache : LHM) (c : Call) : RunResult Unit → Prop
  | .ok _ r' => statePost cache r' ∧ cacheTargets c r'
  | .err e r' => statePost cache r' ∧ e.isFMRIP = false
  | .diverge => True

theorem stepPostP_mono_call {cache1 cache2 : LHM} (hc : cache1 = cache2)
    {c1 c2 : Call} (ht : ∀ r', cacheTargets c1 r' → cacheTargets c2 r')
    (out : RunResult Unit) : stepPostP cache1 c1 out → stepPostP cache2 c2 out := by
  cases out with
  | ok a r' => exact fun ⟨hs, htg⟩ => ⟨hc ▸ hs, ht r' htg⟩
  | err e r' => exact fun ⟨hs, he⟩ => ⟨hc ▸ hs, he⟩
  | diverge => exact fun h => h

theorem statePost_trans {cache : LHM} {r2 r3 : Run}
    (h1 : statePost cache r2) (h2 : statePost r2.parsed_files r3) :
    statePost cache r3 :=
  ⟨fun k hk => h2.1 k (h1.1 k hk), fun hnd => h2.2.1 (h1.2.1 hnd),
   fun hcl => h2.2.2 (h1.2.2 hcl)⟩

theorem statePost_refl (cache : LHM) (r' : Run) (h : r'.parsed_files = cache) :
    statePost cache r' := by
  subst h
  exact ⟨fun k hk => hk, id, id⟩

/-- Master invariant of the resolver: every call satisfies its
postcondition. -/
theorem step_invariants (env : Env) :
    ∀ fuel c, stepPostP c.runOf.parsed_files c (step env fuel c) := by
  intro fuel
  induction fuel with
  | zero => intro c; simp [step, stepPostP]
  | succ fuel ih =>
    intro c
    cases c with
    | aif r p =>
      rw [step]
      cases hp : (lhmGet r.parsed_files p).isSome with
      | true =>
        simp only [if_true]
        exact ⟨statePost_refl _ _ rfl, by simp [cacheTargets, hp]⟩
      | false =>
        simp only [Bool.false_eq_true, if_false]
        cases hf : r.includes.find?
            (fun include_dir => env.fsExists (include_dir.join p.toPath)) with
        | some include_dir =>
          exact stepPostP_mono_call rfl (fun r' h => h) _
            (ih (.af r p (include_dir.join p.toPath)))
        | none =>
          cases he : embeddedContent p.toStr with
          | some content =>
            exact stepPostP_mono_call rfl (fun r' h => h) _
              (ih (.afc r p p.toPath content))
          | none => exact ⟨statePost_refl _ _ rfl, rfl⟩
    | af r p fs_path =>
      rw [step]
      cases hp : (lhmGet r.parsed_files p).isSome with
      | true =>
        simp only [if_true]
        exact ⟨statePost_refl _ _ rfl, by simp [cacheTargets, hp]⟩
      | false =>
        simp only [Bool.false_eq_true, if_false]
        cases hr : env.fsRead fs_path with
        | none => exact ⟨statePost_refl _ _ rfl, rfl⟩
        | some content =>
          exact stepPostP_mono_call rfl (fun r' h => h) _
            (ih (.afc { r with events := r.events ++ [.fsReadEv fs_path] }
              p fs_path content))
    | afc r p fs_path content =>
      rw [step]
      split
      · exact ⟨statePost_refl _ _ rfl, rfl⟩
      · rename_i parsed hparse
        have hloopP := ih (.loop { r with events := r.events ++ [.parseEv content] }
          parsed.imports)
        split
        · rename_i r2 hloop
          rw [hloop] at hloopP
          obtain ⟨hstate2, htarg2⟩ := hloopP
          simp only [cacheTargets] at htarg2
          split
          · exact trivial
          · exact ⟨hstate2, rfl⟩
          · rename_i this_file_deps hdeps
            split
            · exact ⟨hstate2, rfl⟩
            · rename_i descriptor hconv
              refine ⟨⟨?_, ?_, ?_⟩, ?_⟩
              · intro k hk
                exact lhmGet_insert_isSome _ _ _ _ (hstate2.1 k hk)
              · intro hnd
                exact lhmNodup_insert _ _ _ (hstate2.2.1 hnd)
              · intro hclosed
                have hcl2 : importClosed r2.parsed_files := hstate2.2.2 hclosed
                intro k pairk hk imp hi
                rw [lhmGet_insert] at hk
                by_cases hkp : k = p
                · simp only [hkp, if_true] at hk
                  cases hk
                  exact lhmGet_insert_isSome _ _ _ _ (htarg2 imp hi)
                · simp only [hkp, if_false] at hk
                  exact lhmGet_insert_isSome _ _ _ _ (hcl2 k pairk hk imp hi)
              · simp [cacheTargets, lhmGet_insert]
        · rename_i e r2 hloop
          rw [hloop] at hloopP
          exact ⟨hloopP.1, hloopP.2⟩
        · exact trivial
    | loop r imps =>
      cases imps with
      | nil =>
        rw [step]
        exact ⟨statePost_refl _ _ rfl, by simp [cacheTargets]⟩
      | cons imp rest =>
        rw [step]
        have haP := ih (.aif r imp.path)
        cases ha : step env fuel (.aif r imp.path) with
        | diverge => exact trivial
        | err e r2 =>
          rw [ha] at haP
          exact ⟨haP.1, haP.2⟩
        | ok a r2 =>
          cases a
          rw [ha] at haP
          obtain ⟨hstateA, htargA⟩ := haP
          simp only [cacheTargets] at htargA
          show stepPostP r.parsed_files (Call.loop r (imp :: rest))
            (step env fuel (Call.loop r2 rest))
          have hrestP := ih (.loop r2 rest)
          cases hout : step env fuel (.loop r2 rest) with
          | diverge => exact trivial
          | err e r3 =>
            rw [hout] at hrestP
            exact ⟨statePost_trans hstateA hrestP.1, hrestP.2⟩
          | ok b r3 =>
            cases b
            rw [hout] at hrestP
            obtain ⟨hstateB, htargB⟩ := hrestP
            refine ⟨statePost_trans hstateA hstateB, ?_⟩
            intro imp' hi
            rcases List.mem_cons.mp hi with rfl | hi'
            · exact hstateB.1 _ htargA
            · exact htargB imp' hi'

/-- Generic postcondition shape for resolver operations returning a value:
state invariants on any terminating outcome, plus a success payload
condition. -/
def runPost {α : Type} (cache : LHM) (post : α → Run → Prop) :
    RunResult α → Prop
  | .ok a r' => statePost cache r' ∧ post a r'
  | .err _ r' => statePost cache r'
  | .diverge => True

/-- `add_fs_file` preserves the state invariants and, on success, leaves the
returned canonical path cached. -/
theorem add_fs_file_post (env : Env) (fuel : Nat) (r : Run) (fs_path : FsPath) :
    runPost r.parsed_files (fun rel r' => (lhmGet r'.parsed_files rel).isSome)
      (add_fs_file env fuel r fs_path) := by
  unfold add_fs_file
  split
  · rename_i rel hrel
    have hP := step_invariants env fuel (.af r rel fs_path)
    split
    · rename_i r2 ha
      unfold add_file at ha
      rw [ha] at hP
      exact ⟨hP.1, hP.2⟩
    · rename_i e r2 ha
      unfold add_file at ha
      rw [ha] at hP
      exact hP.1
    · exact trivial
  · exact statePost_refl _ _ rfl

/-- The input loop of `parse_and_typecheck` preserves the state invariants
and returns one canonical path per input. -/
theorem pt_loop_post (env : Env) (fuel : Nat) :
    ∀ inputs r,
      runPost r.parsed_files (fun rels _ => rels.length = inputs.length)
        (pt_loop env fuel r inputs) := by
  intro inputs
  induction inputs with
  | nil => intro r; exact ⟨statePost_refl _ _ rfl, rfl⟩
  | cons input rest ih =>
    intro r
    rw [pt_loop]
    have hA := add_fs_file_post env fuel r input
    split
    · rename_i rel r2 ha
      rw [ha] at hA
      have hR := ih r2
      split
      · rename_i rels r3 hrest
        rw [hrest] at hR
        exact ⟨statePost_trans hA.1 hR.1, by simp [hR.2]⟩
      · rename_i e r3 hrest
        rw [hrest] at hR
        exact statePost_trans hA.1 hR
      · exact trivial
    · rename_i e r2 ha
      rw [ha] at hA
      exact hA
    · exact trivial

/-- `add_file_content` wraps a parse failure in `WithFileError` carrying the
display path of the file being processed. -/
theorem add_file_content_parse_wrapped (env : Env) (fuel : Nat) (r : Run)
    (p : ProtoPathBuf) (fs_path : FsPath) (content : String) (e : String)
    (h : env.parse content = .error e) :
    add_file_content env (fuel + 1) r p fs_path content =
      .err (.withFile fs_path.display (.parseError e))
        { r with events := r.events ++ [.parseEv content] } := by
  unfold add_file_content
  rw [step]
  split
  · rename_i e' hpe
    rw [h] at hpe
    cases hpe
    rfl
  · rename_i parsed' hpe
    rw [h] at hpe
    cases hpe

/-- An error produced while resolving the declared imports of a file is
propagated by `add_file_content` unchanged: no `WithFileError` wrapper with
this file's display path is added around it. -/
theorem add_file_content_import_error_passthrough (env : Env) (fuel : Nat)
    (r : Run) (p : ProtoPathBuf) (fs_path : FsPath) (content : String)
    (parsed : FileDescriptor) (e : PError) (r2 : Run)
    (hparse : env.parse content = .ok parsed)
    (hloop : step env fuel
      (.loop { r with events := r.events ++ [.parseEv content] }
        parsed.imports) = .err e r2) :
    add_file_content env (fuel + 1) r p fs_path content = .err e r2 := by
  unfold add_file_content
  rw [step]
  split
  · rename_i e' hpe
    rw [hparse] at hpe
    cases hpe
  · rename_i parsed' hpe
    rw [hparse] at hpe
    cases hpe
    rw [hloop]

/-- `add_file_content` wraps a conversion failure in `WithFileError`
carrying the display path of the file being processed. -/
theorem add_file_content_convert_wrapped (env : Env) (fuel : Nat) (r : Run)
    (p : ProtoPathBuf) (fs_path : FsPath) (content : String)
    (parsed : FileDescriptor) (r2 : Run) (this_file_deps : LHM) (e : String)
    (hparse : env.parse content = .ok parsed)
    (hloop : step env fuel
      (.loop { r with events := r.events ++ [.parseEv content] }
        parsed.imports) = .ok () r2)
    (hdeps : depsStep r2.parsed_files (depsFuel r2.parsed_files parsed.imports)
      (.many parsed.imports []) = .ok this_file_deps)
    (hconv : env.convert p parsed (this_file_deps.map (fun e => e.2)) = .error e) :
    add_file_content env (fuel + 1) r p fs_path content =
      .err (.withFile fs_path.display (.convertError e))
        { r2 with
          events := r2.events ++
            [.convertEv p (this_file_deps.map (fun e => e.2))] } := by
  unfold add_file_content
  rw [step]
  split
  · rename_i e' hpe
    rw [hparse] at hpe
    cases hpe
  · rename_i parsed' hpe
    rw [hparse] at hpe
    cases hpe
    split
    · rename_i r2' hl
      rw [hloop] at hl
      cases hl
      split
      · rename_i hd
        rw [hdeps] at hd
        cases hd
      · rename_i hd
        rw [hdeps] at hd
        cases hd
      · rename_i deps' hd
        rw [hdeps] at hd
        cases hd
        split
        · rename_i e' hc
          rw [hconv] at hc
          cases hc
          rfl
        · rename_i d' hc
          rw [hconv] at hc
          cases hc
    · rename_i e' r2' hl
      rw [hloop] at hl
      cases hl
    · rename_i hl
      rw [hloop] at hl
      cases hl

/-! ### Concrete environments for witnesses and counterexamples -/

/-- Include directory `r`. -/
def rDir : FsPath := ⟨false, ["r"]⟩

/-- Filesystem path `r/x.proto`. -/
def xFs : FsPath := ⟨false, ["r", "x.proto"]⟩

/-- Filesystem path `r/y.proto`. -/
def yFs : FsPath := ⟨false, ["r", "y.proto"]⟩

/-- Canonical path `x.proto`. -/
def xP : ProtoPathBuf := ⟨["x.proto"]⟩

/-- Canonical path `y.proto`. -/
def yP : ProtoPathBuf := ⟨["y.proto"]⟩

/-- Concrete session: `x.proto` imports `y.proto`, both on disk under the
include directory `r`; conversion renders the canonical path. -/
def exEnv : Env where
  fsExists := fun q => decide (q = xFs) || decide (q = yFs)
  fsRead := fun q =>
    if q = xFs then some ("cx") else if q = yFs then some ("cy") else none
  parse := fun c =>
    if c = "cx" then .ok ⟨[⟨yP⟩], "mx"⟩
    else if c = "cy" then .ok ⟨[], "my"⟩
    else .error ("parse")
  convert := fun q _ _ => .ok (String.append ("D:") q.toStr)

/-- Filesystem path `r/t1.proto` (diamond top, imports a then b). -/
def t1Fs : FsPath := ⟨false, ["r", "t1.proto"]⟩

/-- Filesystem path `r/t2.proto` (diamond top, imports b then a). -/
def t2Fs : FsPath := ⟨false, ["r", "t2.proto"]⟩

/-- Filesystem path `r/a.proto`. -/
def aFs : FsPath := ⟨false, ["r", "a.proto"]⟩

/-- Filesystem path `r/b.proto`. -/
def bFs : FsPath := ⟨false, ["r", "b.proto"]⟩

/-- Filesystem path `r/c.proto`. -/
def cFs : FsPath := ⟨false, ["r", "c.proto"]⟩

/-- Canonical path `a.proto`. -/
def aP : ProtoPathBuf := ⟨["a.proto"]⟩

/-- Canonical path `b.proto`. -/
def bP : ProtoPathBuf := ⟨["b.proto"]⟩

/-- Canonical path `c.proto`. -/
def cP : ProtoPathBuf := ⟨["c.proto"]⟩

/-- Canonical path `t1.proto`. -/
def t1P : ProtoPathBuf := ⟨["t1.proto"]⟩

/-- Canonical path `t2.proto`. -/
def t2P : ProtoPathBuf := ⟨["t2.proto"]⟩

/-- Diamond session: `t1.proto` imports `a.proto` then `b.proto`,
`t2.proto` imports them in the opposite order, and both `a.proto` and
`b.proto` import `c.proto`. -/
def dEnv : Env where
  fsExists := fun q => decide (q ∈ [t1Fs, t2Fs, aFs, bFs, cFs])
  fsRead := fun q =>
    if q = t1Fs then some ("c1")
    else if q = t2Fs then some ("c2")
    else if q = aFs then some ("ca")
    else if q = bFs then some ("cb")
    else if q = cFs then some ("cc")
    else none
  parse := fun s =>
    if s = "c1" then .ok ⟨[⟨aP⟩, ⟨bP⟩], "m1"⟩
    else if s = "c2" then .ok ⟨[⟨bP⟩, ⟨aP⟩], "m2"⟩
    else if s = "ca" then .ok ⟨[⟨cP⟩], "ma"⟩
    else if s = "cb" then .ok ⟨[⟨cP⟩], "mb"⟩
    else if s = "cc" then .ok ⟨[], "mc"⟩
    else .error ("parse")
  convert := fun q _ _ => .ok q.toStr

/-- Fresh resolver state with include directory `r`. -/
def dR0 : Run := ⟨[], [rDir], []⟩

/-- Session with no include directories: only the embedded table can
resolve imports; the parser accepts exactly the embedded timestamp text. -/
def embEnv : Env where
  fsExists := fun _ => false
  fsRead := fun _ => none
  parse := fun s => if s = TIMESTAMP_PROTO then .ok ⟨[], "mts"⟩ else .error ("parse")
  convert := fun q _ _ => .ok q.toStr

/-- Fresh resolver state with no include directories. -/
def embR0 : Run := ⟨[], [], []⟩

/-- Canonical path `google/protobuf/timestamp.proto`. -/
def tsP : ProtoPathBuf := ⟨["google", "protobuf", "timestamp.proto"]⟩

/-- Canonical path `not/a/real.proto`. -/
def notP : ProtoPathBuf := ⟨["not", "a", "real.proto"]⟩

/-- Session whose only file content `cw` declares an import of
`nope.proto`, which exists nowhere (no include directories, not
embedded). -/
def wEnv : Env where
  fsExists := fun _ => false
  fsRead := fun _ => none
  parse := fun s =>
    if s = "cw" then .ok ⟨[⟨⟨["nope.proto"]⟩⟩], "mw"⟩ else .error ("parse")
  convert := fun q _ _ => .ok q.toStr

/-- Canonical path `w.proto`. -/
def wP : ProtoPathBuf := ⟨["w.proto"]⟩

/-- Filesystem path `w.proto`. -/
def wFs : FsPath := ⟨false, ["w.proto"]⟩

/-- Session whose converter always fails. -/
def cvEnv : Env where
  fsExists := fun _ => false
  fsRead := fun _ => none
  parse := fun s => .ok ⟨[], s⟩
  convert := fun _ _ _ => .error ("conv")

/-- Number of entries stored under a key. -/
def entryCount (m : LHM) (k : ProtoPathBuf) : Nat :=
  (m.filter (fun e => decide (e.1 = k))).length

/-- Final cache of a resolver operation, when it terminated. -/
def RunResult.cacheOf {α : Type} : RunResult α → Option LHM
  | .ok _ r => some r.parsed_files
  | .err _ r => some r.parsed_files
  | .diverge => none

/-- Whether a resolver operation failed with `FileMustResideInImportPath`. -/
def RunResult.isFMRIPErr {α : Type} : RunResult α → Bool
  | .err e _ => e.isFMRIP
  | _ => false

/-! ### Claim theorems -/

/-- C1: for every resolver session and canonical path already present in
the cache, a second call to `add_file` with that path returns success
immediately and leaves the whole state — the cache entry for the path, the
rest of the cache, and the event trace (hence no filesystem read and no
parser invocation) — exactly as it was. -/
theorem c1_add_file_cached_idempotent (env : Env) (fuel : Nat) (r : Run)
    (protobuf_path : ProtoPathBuf) (fs_path : FsPath)
    (pair : FileDescriptorPair)
    (h : lhmGet r.parsed_files protobuf_path = some pair) :
    add_file env (fuel + 1) r protobuf_path fs_path = .ok () r := by
  unfold add_file
  rw [step]
  simp [h]

/-- State of a session that has already parsed and cached `x.proto`. -/
def wRun1 : Run := ⟨[(xP, ⟨⟨[], "mx"⟩, "dx"⟩)], [rDir], []⟩

/-- Witness for C1 at a concrete cached state. -/
theorem c1_add_file_cached_idempotent_witness :
    add_file exEnv 1 wRun1 xP xFs = .ok () wRun1 :=
  c1_add_file_cached_idempotent exEnv 0 wRun1 xP xFs ⟨⟨[], "mx"⟩, "dx"⟩ (by rfl)

/-- C2: on success, the ordered dependency closure computed for a file —
whose values are exactly the list handed to the converter — contains an
entry for precisely the paths transitively imported by the file (so a path
that is cached but not transitively imported, such as `C` for a file `B`
that does not import it, is excluded), each entry being the cache's entry
for that path, and its keys are in first-discovery depth-first order over
the declared import order. -/
theorem c2_deps_closure_exact (cache : LHM) (fuel : Nat)
    (parsed : FileDescriptor) (res : LHM)
    (h : get_all_deps_already_parsed cache fuel parsed [] = .ok res) :
    (∀ k, (lhmGet res k).isSome ↔ Reach cache parsed.imports k) ∧
    (∀ k, (lhmGet res k).isSome → lhmGet res k = lhmGet cache k) ∧
    dfsSpec cache fuel (.many (parsed.imports.map Import.path) []) =
      some (lhmKeys res) := by
  unfold get_all_deps_already_parsed at h
  refine ⟨fun k => ⟨depsStep_sound cache fuel parsed.imports res h k,
    depsStep_complete cache fuel parsed.imports res h k⟩,
    depsStep_values cache fuel parsed.imports res h, ?_⟩
  exact depsStep_keys_dfs cache fuel _ res h

/-- A one-entry cache holding only `y.proto`. -/
def cacheW : LHM := [(yP, ⟨⟨[], "my"⟩, "dy"⟩)]

/-- A parsed file importing only `y.proto`. -/
def parsedW : FileDescriptor := ⟨[⟨yP⟩], "mw"⟩

/-- The closure computed for `parsedW` over `cacheW`. -/
def resW : LHM := [(yP, ⟨⟨[], "my"⟩, "dy"⟩)]

/-- Witness for C2 on a concrete closure computation. -/
theorem c2_deps_closure_exact_witness :
    ((lhmGet resW yP).isSome ↔ Reach cacheW parsedW.imports yP) ∧
    dfsSpec cacheW 3 (.many (parsedW.imports.map Import.path) []) =
      some (lhmKeys resW) :=
  have h := c2_deps_closure_exact cacheW 3 parsedW resW (by rfl)
  ⟨h.1 yP, h.2.2⟩

/-- C9: when the import-resolution loop of `add_file_content` has succeeded
on an import-closed cache, the subsequent closure computation never reaches
the `.expect("must be already parsed")` panic: every path it looks up is
guaranteed to be cached. -/
theorem c9_no_panic_after_imports_resolved (env : Env) (fuel f' : Nat)
    (r : Run) (parsed : FileDescriptor) (r2 : Run)
    (hclosed : importClosed r.parsed_files)
    (hloop : step env fuel (.loop r parsed.imports) = .ok () r2) :
    get_all_deps_already_parsed r2.parsed_files f' parsed [] ≠ .panic := by
  have hP := step_invariants env fuel (.loop r parsed.imports)
  rw [hloop] at hP
  obtain ⟨hstate, htarg⟩ := hP
  simp only [cacheTargets] at htarg
  unfold get_all_deps_already_parsed
  exact depsStep_no_panic r2.parsed_files (hstate.2.2 hclosed) f' _ htarg

/-- Session state after resolving the import `y.proto` from scratch. -/
def rYonly : Run := ⟨[(yP, ⟨⟨[], "my"⟩, "D:y.proto"⟩)], [rDir],
  [.fsReadEv yFs, .parseEv ("cy"), .convertEv yP []]⟩

/-- The parsed model of `x.proto`: it imports `y.proto`. -/
def parsedX : FileDescriptor := ⟨[⟨yP⟩], "mx"⟩

/-- Witness for C9 at a concrete resolved session. -/
theorem c9_no_panic_after_imports_resolved_witness :
    get_all_deps_already_parsed rYonly.parsed_files 7 parsedX [] ≠ .panic :=
  c9_no_panic_after_imports_resolved exEnv 18 7 ⟨[], [rDir], []⟩ parsedX rYonly
    (by intro k pair h; simp [lhmGet] at h)
    (by decide)

/-- C10: the ordered dependency closure computed for a file from its
declared imports never contains the file's own entry, provided the file is
not among its own transitive imports; hence the dependency list handed to
the converter excludes the file itself. -/
theorem c10_file_absent_from_own_deps (cache : LHM) (fuel : Nat)
    (parsed : FileDescriptor) (res : LHM) (f : ProtoPathBuf)
    (h : get_all_deps_already_parsed cache fuel parsed [] = .ok res)
    (hnr : ¬ Reach cache parsed.imports f) :
    lhmGet res f = none := by
  unfold get_all_deps_already_parsed at h
  by_contra hne
  have hs : (lhmGet res f).isSome := Option.ne_none_iff_isSome.mp hne
  exact hnr (depsStep_sound cache fuel parsed.imports res h f hs)

/-- Witness for C10: the closure computed for a file `w.proto` importing
only `y.proto` does not contain `x.proto` (in particular not the file
itself). -/
theorem c10_file_absent_from_own_deps_witness : lhmGet resW xP = none :=
  c10_file_absent_from_own_deps cacheW 3 parsedW resW xP (by rfl)
    (by
      intro hr
      have hall : ∀ k, Reach cacheW parsedW.imports k → k = yP := by
        intro k hk
        induction hk with
        | root h => simpa [parsedW] using h
        | step hq hc hi ih =>
          subst ih
          have hwv : lhmGet cacheW yP = some ⟨⟨[], "my"⟩, "dy"⟩ := rfl
          rw [hwv] at hc
          cases hc
          simp at hi
      exact absurd (hall xP hr) (by decide))

/-- Final state of the session compiling `[x.proto, y.proto]` under include
directory `r`. -/
def rFxy : Run :=
  ⟨[(yP, ⟨⟨[], "my"⟩, "D:y.proto"⟩),
    (xP, ⟨⟨[⟨yP⟩], "mx"⟩, "D:x.proto"⟩)],
   [rDir],
   [.fsReadEv xFs, .parseEv ("cx"), .fsReadEv yFs, .parseEv ("cy"),
    .convertEv yP [], .convertEv xP [⟨⟨[], "my"⟩, "D:y.proto"⟩]]⟩

/-- C3: `parse_and_typecheck` returns one canonical path per input, in
input order and not deduplicated (repeated inputs yield repeated entries),
and returns as descriptors exactly the final cache drained in insertion
(first-discovery) order, whose keys are duplicate-free; concretely, for
inputs `[x, y]` where `x` imports `y`, the relative paths are `[x, y]` and
`y`'s descriptor precedes `x`'s with no duplicates. -/
theorem c3_parse_and_typecheck_shape :
    (∀ (env : Env) (fuel : Nat) (r : Run) (inputs : List FsPath)
        (rels : List ProtoPathBuf) (rF : Run),
      pt_loop env fuel r inputs = .ok rels rF → rels.length = inputs.length) ∧
    (∀ (env : Env) (fuel : Nat) (includes inputs : List FsPath)
        (rels : List ProtoPathBuf) (rF : Run),
      pt_loop env fuel ⟨[], includes, []⟩ inputs = .ok rels rF →
        parse_and_typecheck env fuel includes inputs =
          .ok ⟨rels, rF.parsed_files.map (fun e => e.2.descriptor)⟩ ∧
        (lhmKeys rF.parsed_files).Nodup) ∧
    parse_and_typecheck exEnv 20 [rDir] [xFs, yFs] =
      .ok ⟨[xP, yP], ["D:y.proto", "D:x.proto"]⟩ ∧
    parse_and_typecheck exEnv 20 [rDir] [xFs, xFs] =
      .ok ⟨[xP, xP], ["D:y.proto", "D:x.proto"]⟩ := by
  refine ⟨?_, ?_, by decide, by decide⟩
  · intro env fuel r inputs rels rF h
    have hP := pt_loop_post env fuel inputs r
    rw [h] at hP
    exact hP.2
  · intro env fuel includes inputs rels rF h
    constructor
    · unfold parse_and_typecheck
      rw [h]
    · have hP := pt_loop_post env fuel inputs ⟨[], includes, []⟩
      rw [h] at hP
      exact hP.1.2.1 (by simp [lhmKeys])

/-- Witness for C3 on the concrete session. -/
theorem c3_parse_and_typecheck_shape_witness :
    ([xP, yP] : List ProtoPathBuf).length = ([xFs, yFs] : List FsPath).length ∧
    (parse_and_typecheck exEnv 20 [rDir] [xFs, yFs] =
        .ok ⟨[xP, yP], rFxy.parsed_files.map (fun e => e.2.descriptor)⟩ ∧
      (lhmKeys rFxy.parsed_files).Nodup) :=
  ⟨c3_parse_and_typecheck_shape.1 exEnv 20 ⟨[], [rDir], []⟩ [xFs, yFs]
      [xP, yP] rFxy (by decide),
   c3_parse_and_typecheck_shape.2.1 exEnv 20 [rDir] [xFs, yFs]
      [xP, yP] rFxy (by decide)⟩

/-- C4: for a canonical path not yet cached, `add_imported_file` delegates
to `add_file` for the first include directory whose joined path exists;
only if none exists does it consult the embedded table by exact string
match (exactly the twelve fixed entries), delegating to `add_file_content`
with the embedded text and the canonical path doubling as the pseudo
filesystem path; if neither succeeds it fails with
`FileNotFoundInImportPath`.  With no include directories,
`google/protobuf/timestamp.proto` resolves to the built-in content and
`not/a/real.proto` fails with `FileNotFoundInImportPath`. -/
theorem c4_add_imported_file_resolution :
    (∀ (env : Env) (fuel : Nat) (r : Run) (p : ProtoPathBuf)
        (include_dir : FsPath),
      lhmGet r.parsed_files p = none →
      r.includes.find? (fun d => env.fsExists (d.join p.toPath)) =
        some include_dir →
      add_imported_file env (fuel + 1) r p =
        add_file env fuel r p (include_dir.join p.toPath)) ∧
    (∀ (env : Env) (fuel : Nat) (r : Run) (p : ProtoPathBuf)
        (content : String),
      lhmGet r.parsed_files p = none →
      r.includes.find? (fun d => env.fsExists (d.join p.toPath)) = none →
      embeddedContent p.toStr = some content →
      add_imported_file env (fuel + 1) r p =
        add_file_content env fuel r p p.toPath content) ∧
    (∀ (env : Env) (fuel : Nat) (r : Run) (p : ProtoPathBuf),
      lhmGet r.parsed_files p = none →
      r.includes.find? (fun d => env.fsExists (d.join p.toPath)) = none →
      embeddedContent p.toStr = none →
      add_imported_file env (fuel + 1) r p =
        .err (.fileNotFoundInImportPath p.toStr r.includes) r) ∧
    (∀ s : String, (embeddedContent s).isSome ↔ s ∈ embeddedPaths) ∧
    embeddedPaths.length = 12 ∧
    add_imported_file embEnv 5 embR0 tsP =
      .ok () ⟨[(tsP, ⟨⟨[], "mts"⟩, "google/protobuf/timestamp.proto"⟩)], [],
        [.parseEv TIMESTAMP_PROTO, .convertEv tsP []]⟩ ∧
    add_imported_file embEnv 5 embR0 notP =
      .err (.fileNotFoundInImportPath ("not/a/real.proto") []) embR0 := by
  refine ⟨?_, ?_, ?_, ?_, by decide, by decide, by decide⟩
  · intro env fuel r p include_dir hcache hfind
    unfold add_imported_file add_file
    rw [step]
    simp only [hcache, Option.isSome_none, Bool.false_eq_true, if_false, hfind]
  · intro env fuel r p content hcache hfind hembed
    unfold add_imported_file add_file_content
    rw [step]
    simp only [hcache, Option.isSome_none, Bool.false_eq_true, if_false,
      hfind, hembed]
  · intro env fuel r p hcache hfind hembed
    unfold add_imported_file
    rw [step]
    simp only [hcache, Option.isSome_none, Bool.false_eq_true, if_false,
      hfind, hembed]
  · intro s
    unfold embeddedContent
    split <;> simp_all [embeddedPaths]

/-- Witness for C4: concrete delegations and the concrete failure. -/
theorem c4_add_imported_file_resolution_witness :
    add_imported_file exEnv 11 ⟨[], [rDir], []⟩ xP =
      add_file exEnv 10 ⟨[], [rDir], []⟩ xP (rDir.join xP.toPath) ∧
    add_imported_file embEnv 5 embR0 tsP =
      add_file_content embEnv 4 embR0 tsP tsP.toPath TIMESTAMP_PROTO ∧
    add_imported_file wEnv 3 ⟨[], [], []⟩ ⟨["nope.proto"]⟩ =
      .err (.fileNotFoundInImportPath ("nope.proto") []) ⟨[], [], []⟩ :=
  ⟨c4_add_imported_file_resolution.1 exEnv 10 ⟨[], [rDir], []⟩ xP rDir
      (by rfl) (by decide),
   c4_add_imported_file_resolution.2.1 embEnv 4 embR0 tsP TIMESTAMP_PROTO
      (by rfl) (by rfl) (by rfl),
   c4_add_imported_file_resolution.2.2.1 wEnv 2 ⟨[], [], []⟩ ⟨["nope.proto"]⟩
      (by rfl) (by rfl) (by rfl)⟩

/-- C5 counterexample: while processing `w.proto` (content `cw`, which
imports the nowhere-to-be-found `nope.proto`), the failure of the
transitive import resolution propagates as a bare `FileNotFoundInImportPath`, not
wrapped with `w.proto`'s display path — refuting the claim that every error
arising while processing a file is wrapped with that file's display path
before propagating. -/
theorem c5_counterexample_import_error_not_wrapped :
    add_file_content wEnv 5 ⟨[], [], []⟩ wP wFs ("cw") =
      .err (.fileNotFoundInImportPath ("nope.proto") [])
        ⟨[], [], [.parseEv ("cw")]⟩ ∧
    (PError.fileNotFoundInImportPath ("nope.proto") []).isWithFile = false :=
  ⟨by decide, rfl⟩

/-- C5 (amended): a file's own parse failure and its own conversion failure
are wrapped with the file's display path before propagating; an error
arising from resolving the file's declared imports propagates unchanged,
carrying only whatever wrapping was added at the file where the parse or
conversion failure actually occurred. -/
theorem c5_error_wrapping_amended :
    (∀ (env : Env) (fuel : Nat) (r : Run) (p : ProtoPathBuf)
        (fs_path : FsPath) (content : String) (e : String),
      env.parse content = .error e →
      add_file_content env (fuel + 1) r p fs_path content =
        .err (.withFile fs_path.display (.parseError e))
          { r with events := r.events ++ [.parseEv content] }) ∧
    (∀ (env : Env) (fuel : Nat) (r : Run) (p : ProtoPathBuf)
        (fs_path : FsPath) (content : String) (parsed : FileDescriptor)
        (e : PError) (r2 : Run),
      env.parse content = .ok parsed →
      step env fuel
        (.loop { r with events := r.events ++ [.parseEv content] }
          parsed.imports) = .err e r2 →
      add_file_content env (fuel + 1) r p fs_path content = .err e r2) ∧
    (∀ (env : Env) (fuel : Nat) (r : Run) (p : ProtoPathBuf)
        (fs_path : FsPath) (content : String) (parsed : FileDescriptor)
        (r2 : Run) (this_file_deps : LHM) (e : String),
      env.parse content = .ok parsed →
      step env fuel
        (.loop { r with events := r.events ++ [.parseEv content] }
          parsed.imports) = .ok () r2 →
      depsStep r2.parsed_files (depsFuel r2.parsed_files parsed.imports)
        (.many parsed.imports []) = .ok this_file_deps →
      env.convert p parsed (this_file_deps.map (fun e => e.2)) = .error e →
      add_file_content env (fuel + 1) r p fs_path content =
        .err (.withFile fs_path.display (.convertError e))
          { r2 with
            events := r2.events ++
              [.convertEv p (this_file_deps.map (fun e => e.2))] }) :=
  ⟨add_file_content_parse_wrapped, add_file_content_import_error_passthrough,
   add_file_content_convert_wrapped⟩

/-- Witness for the amended C5: a concrete wrapped parse failure, a
concrete unwrapped import-resolution failure, and a concrete wrapped
conversion failure. -/
theorem c5_error_wrapping_amended_witness :
    add_file_content wEnv 1 ⟨[], [], []⟩ wP wFs ("zz") =
      .err (.withFile wFs.display (.parseError ("parse")))
        ⟨[], [], [.parseEv ("zz")]⟩ ∧
    add_file_content wEnv 3 ⟨[], [], []⟩ wP wFs ("cw") =
      .err (.fileNotFoundInImportPath ("nope.proto") [])
        ⟨[], [], [.parseEv ("cw")]⟩ ∧
    add_file_content cvEnv 2 ⟨[], [], []⟩ wP wFs ("cv") =
      .err (.withFile wFs.display (.convertError ("conv")))
        ⟨[], [], [.parseEv ("cv"), .convertEv wP []]⟩ :=
  ⟨c5_error_wrapping_amended.1 wEnv 0 ⟨[], [], []⟩ wP wFs ("zz") ("parse")
      (by rfl),
   c5_error_wrapping_amended.2.1 wEnv 2 ⟨[], [], []⟩ wP wFs ("cw")
      ⟨[⟨⟨["nope.proto"]⟩⟩], "mw"⟩ (.fileNotFoundInImportPath ("nope.proto") [])
      ⟨[], [], [.parseEv ("cw")]⟩ (by rfl) (by decide),
   c5_error_wrapping_amended.2.2 cvEnv 1 ⟨[], [], []⟩ wP wFs ("cv")
      ⟨[], "cv"⟩ ⟨[], [], [.parseEv ("cv")]⟩ [] ("conv")
      (by rfl) (by decide) (by rfl) (by rfl)⟩

/-- C6: throughout every resolver operation and session, cache entries are
never removed and the keys stay duplicate-free (at most one entry per
canonical path); concretely, in the diamond where `a.proto` and `b.proto`
both import `c.proto`, resolving a top file that imports both leaves
exactly one cache entry for `c.proto`, with the same `{model, descriptor}`
pair whether `c.proto` is first reached via `a.proto` (top file `t1`) or
via `b.proto` (top file `t2`). -/
theorem c6_cache_unique_no_removal :
    (∀ (env : Env) (fuel : Nat) (c : Call) (r' : Run),
      (step env fuel c).finalRun = some r' →
        (∀ k, (lhmGet c.runOf.parsed_files k).isSome →
          (lhmGet r'.parsed_files k).isSome) ∧
        ((lhmKeys c.runOf.parsed_files).Nodup →
          (lhmKeys r'.parsed_files).Nodup)) ∧
    (∀ (env : Env) (fuel : Nat) (includes inputs : List FsPath)
        (rels : List ProtoPathBuf) (rF : Run),
      pt_loop env fuel ⟨[], includes, []⟩ inputs = .ok rels rF →
        (lhmKeys rF.parsed_files).Nodup) ∧
    (add_fs_file dEnv 32 dR0 t1Fs).cacheOf.map (fun m => entryCount m cP) =
      some 1 ∧
    (add_fs_file dEnv 32 dR0 t2Fs).cacheOf.map (fun m => entryCount m cP) =
      some 1 ∧
    (add_fs_file dEnv 32 dR0 t1Fs).cacheOf.map (fun m => lhmGet m cP) =
      some (some ⟨⟨[], "mc"⟩, "c.proto"⟩) ∧
    (add_fs_file dEnv 32 dR0 t2Fs).cacheOf.map (fun m => lhmGet m cP) =
      some (some ⟨⟨[], "mc"⟩, "c.proto"⟩) := by
  refine ⟨?_, ?_, by decide, by decide, by decide, by decide⟩
  · intro env fuel c r' h
    have hP := step_invariants env fuel c
    cases hout : step env fuel c with
    | diverge => rw [hout] at h; cases h
    | ok a r2 =>
      rw [hout] at h hP
      simp only [RunResult.finalRun, Option.some.injEq] at h
      subst h
      exact ⟨hP.1.1, hP.1.2.1⟩
    | err e r2 =>
      rw [hout] at h hP
      simp only [RunResult.finalRun, Option.some.injEq] at h
      subst h
      exact ⟨hP.1.1, hP.1.2.1⟩
  · intro env fuel includes inputs rels rF h
    have hP := pt_loop_post env fuel inputs ⟨[], includes, []⟩
    rw [h] at hP
    exact hP.1.2.1 (by simp [lhmKeys])

/-- Witness for C6: preservation and key-uniqueness at concrete states. -/
theorem c6_cache_unique_no_removal_witness :
    ((lhmGet wRun1.parsed_files xP).isSome ∧
      (lhmKeys wRun1.parsed_files).Nodup) ∧
    (lhmKeys rFxy.parsed_files).Nodup :=
  have h1 := c6_cache_unique_no_removal.1 exEnv 1 (.af wRun1 xP xFs) wRun1
    (by decide)
  ⟨⟨h1.1 xP (by rfl), h1.2 (by decide)⟩,
   c6_cache_unique_no_removal.2.1 exEnv 20 [rDir] [xFs, yFs] [xP, yP] rFxy
     (by decide)⟩

/-- C7: `add_fs_file` takes the first include directory under which the
input can be expressed as a relative canonical path, delegates to
`add_file` with that canonical path and returns it; it fails with
`FileMustResideInImportPath` exactly when no include directory matches. -/
theorem c7_add_fs_file_first_include :
    (∀ (env : Env) (fuel : Nat) (r : Run) (fs_path : FsPath)
        (rel : ProtoPathBuf),
      r.includes.findSome?
        (fun include_dir => strip_pfx fs_path include_dir) = some rel →
      add_fs_file env fuel r fs_path =
        match add_file env fuel r rel fs_path with
        | .ok () r2 => .ok rel r2
        | .err e r2 => .err e r2
        | .diverge => .diverge) ∧
    (∀ (env : Env) (fuel : Nat) (r : Run) (fs_path : FsPath),
      r.includes.findSome?
        (fun include_dir => strip_pfx fs_path include_dir) = none →
      add_fs_file env fuel r fs_path =
        .err (.fileMustResideInImportPath fs_path r.includes) r) ∧
    (∀ (env : Env) (fuel : Nat) (r : Run) (fs_path : FsPath),
      (add_fs_file env fuel r fs_path).isFMRIPErr = true ↔
        r.includes.findSome?
          (fun include_dir => strip_pfx fs_path include_dir) = none) := by
  refine ⟨?_, ?_, ?_⟩
  · intro env fuel r fs_path rel h
    unfold add_fs_file
    rw [h]
  · intro env fuel r fs_path h
    unfold add_fs_file
    rw [h]
  · intro env fuel r fs_path
    constructor
    · intro hb
      cases hf : r.includes.findSome?
          (fun include_dir => strip_pfx fs_path include_dir) with
      | none => rfl
      | some rel =>
        have heq : add_fs_file env fuel r fs_path =
            match add_file env fuel r rel fs_path with
            | .ok () r2 => .ok rel r2
            | .err e r2 => .err e r2
            | .diverge => .diverge := by
          unfold add_fs_file
          rw [hf]
        rw [heq] at hb
        have hP := step_invariants env fuel (.af r rel fs_path)
        cases ha : add_file env fuel r rel fs_path with
        | ok a r2 =>
          cases a
          rw [ha] at hb
          simp [RunResult.isFMRIPErr] at hb
        | err e r2 =>
          rw [ha] at hb
          unfold add_file at ha
          rw [ha] at hP
          simp only [RunResult.isFMRIPErr] at hb
          rw [hP.2] at hb
          cases hb
        | diverge =>
          rw [ha] at hb
          simp [RunResult.isFMRIPErr] at hb
    · intro hf
      unfold add_fs_file
      rw [hf]
      rfl

/-- Filesystem path `q/z.proto`, outside the include directory `r`. -/
def qFs : FsPath := ⟨false, ["q", "z.proto"]⟩

/-- Witness for C7: concrete failure, concrete iff and concrete
delegation. -/
theorem c7_add_fs_file_first_include_witness :
    add_fs_file exEnv 5 dR0 qFs =
      .err (.fileMustResideInImportPath qFs [rDir]) dR0 ∧
    ((add_fs_file exEnv 5 dR0 qFs).isFMRIPErr = true ↔
      [rDir].findSome? (fun include_dir => strip_pfx qFs include_dir) = none) ∧
    add_fs_file exEnv 20 dR0 xFs =
      match add_file exEnv 20 dR0 xP xFs with
      | .ok () r2 => .ok xP r2
      | .err e r2 => .err e r2
      | .diverge => .diverge :=
  ⟨c7_add_fs_file_first_include.2.1 exEnv 5 dR0 qFs (by decide),
   c7_add_fs_file_first_include.2.2 exEnv 5 dR0 qFs,
   c7_add_fs_file_first_include.1 exEnv 20 dR0 xFs xP (by decide)⟩

/-- C8 counterexample: with base `.`, the relative path `../x.proto` is not
accepted unchanged — canonical-path conversion rejects the
parent-directory segment — refuting "any relative path p is accepted
unchanged as the canonical path". -/
theorem c8_counterexample_dot_rejects_parent_segment :
    (FsPath.mk false ["..", "x.proto"]).isAbs = false ∧
    strip_pfx ⟨false, ["..", "x.proto"]⟩ dotPath = none :=
  ⟨rfl, by decide⟩

/-- Whether a component list forms a representable canonical path:
nonempty, with every segment a normal name. -/
def repOk (l : List String) : Bool :=
  !l.isEmpty && l.all validComponent

theorem from_path_of_repOk (l : List String) (h : repOk l = true) :
    ProtoPathBuf.from_path ⟨false, l⟩ = some ⟨l⟩ := by
  simp only [repOk, Bool.and_eq_true] at h
  simp [ProtoPathBuf.from_path, h.1, h.2]

theorem fsStripPfx_pos (p b : FsPath) (hab : b.isAbs = p.isAbs)
    (hpre : b.comps.isPrefixOf p.comps = true) :
    fsStripPfx p b = some ⟨false, p.comps.drop b.comps.length⟩ := by
  simp [fsStripPfx, hab, hpre]

/-- C8 (amended): `strip_prefix` special-cases the base `.`: a relative
path is accepted unchanged as the canonical path exactly when its
components are representable (nonempty, with no empty, `.` or `..`
segments), and rejected otherwise; with any other base (or an absolute
path), ordinary component-wise prefix stripping applies, succeeding with
the stripped remainder exactly when the path and base agree on
absoluteness, the base's components are a prefix of the path's, and the
remainder is representable. -/
theorem c8_strip_pfx_amended :
    (∀ p : FsPath, p.isAbs = false → repOk p.comps = true →
      strip_pfx p dotPath = some ⟨p.comps⟩) ∧
    (∀ p : FsPath, p.isAbs = false → repOk p.comps = false →
      strip_pfx p dotPath = none) ∧
    (∀ p b : FsPath, ¬(b = dotPath ∧ p.isAbs = false) →
      (b.isAbs = p.isAbs → b.comps.isPrefixOf p.comps = true →
        repOk (p.comps.drop b.comps.length) = true →
        strip_pfx p b = some ⟨p.comps.drop b.comps.length⟩) ∧
      ((strip_pfx p b).isSome = true ↔
        (b.isAbs = p.isAbs ∧ b.comps.isPrefixOf p.comps = true ∧
          repOk (p.comps.drop b.comps.length) = true))) := by
  refine ⟨?_, ?_, ?_⟩
  · intro p h1 h2
    simp only [repOk, Bool.and_eq_true] at h2
    simp [strip_pfx, ProtoPathBuf.from_path, h1, h2.1, h2.2]
  · intro p h1 h2
    simp only [strip_pfx, h1]
    simp only [ProtoPathBuf.from_path, repOk, h1] at h2 ⊢
    simp [h2]
  · intro p b hnb
    have hcond : (decide (b = dotPath) && !p.isAbs) = false := by
      rcases Bool.eq_false_or_eq_true (decide (b = dotPath)) with hd | hd
      · have hb : b = dotPath := of_decide_eq_true hd
        have hp : ¬(p.isAbs = false) := fun hp => hnb ⟨hb, hp⟩
        have hp' : p.isAbs = true := by
          revert hp
          cases p.isAbs <;> simp
        simp [hd, hp']
      · simp [hd]
    constructor
    · intro hab hpre hrep
      simp only [strip_pfx, hcond, Bool.false_eq_true, if_false]
      rw [fsStripPfx_pos p b hab hpre]
      exact from_path_of_repOk _ hrep
    · simp only [strip_pfx, hcond, Bool.false_eq_true, if_false]
      by_cases hab : b.isAbs = p.isAbs
      · by_cases hpre : b.comps.isPrefixOf p.comps = true
        · simp only [fsStripPfx, hab, hpre, Bool.and_self, if_true]
          simp [ProtoPathBuf.from_path, repOk, hab, hpre]
        · simp [fsStripPfx, hab, hpre]
      · simp [fsStripPfx, hab]

/-- Witness for the amended C8: concrete acceptance under `.`, and a
concrete ordinary strip with its exactness instance. -/
theorem c8_strip_pfx_amended_witness :
    strip_pfx ⟨false, ["a", "b.proto"]⟩ dotPath = some ⟨["a", "b.proto"]⟩ ∧
    strip_pfx xFs rDir = some ⟨["x.proto"]⟩ ∧
    ((strip_pfx qFs rDir).isSome = true ↔
      (rDir.isAbs = qFs.isAbs ∧ rDir.comps.isPrefixOf qFs.comps = true ∧
        repOk (qFs.comps.drop rDir.comps.length) = true)) :=
  ⟨c8_strip_pfx_amended.1 ⟨false, ["a", "b.proto"]⟩ (by rfl) (by decide),
   (c8_strip_pfx_amended.2.2 xFs rDir (by decide)).1 (by rfl) (by decide)
     (by decide),
   (c8_strip_pfx_amended.2.2 qFs rDir (by decide)).2⟩
